import Mathlib

/-!
Verification model of the attcs/AsyncTask repository.

The repository ships two near-duplicate single-header implementations of an
asynchronous task lifecycle wrapper:

* `src/asynctask.h` — the primary implementation (`AsyncTaskBase` plus the two
  progress variants `AsyncTask` (latest-value slot) and `AsyncTaskPQ`
  (ordered queue with merge)).  This is the header included by the unit tests
  and the examples.
* `src/AsyncTask.h` — a legacy stand-alone variant of the same class, modelled
  below in the `Legacy` namespace, which differs in three places: its worker
  lambda has no pre-start cancellation check, its `onCallbackLoop` tests
  future validity before the FINISHED status, and its destructor calls
  `finish(mFuture.get())` (so it runs user hooks and rethrows).

The embedding is a shallow one.  A task is a record of the C++ member fields;
each member function of the owner thread becomes a Lean function on that
record.  The worker thread is sequentialised into three explicit events
(`workerEnter`, `workerPublish`, `workerFinish`): the owner only communicates
with the worker through the atomics `atCancelled`,
`isExceptionRethrowNeededOnMainThread`, the progress container and the future,
so placing the whole effect of each worker phase at one point of an
interleaved event sequence is faithful for the properties considered.
Exceptions become values of type `CallResult`; `std::future` readiness becomes
the `FutureState` inductive (with `std::launch::async` the `deferred` result
of `wait_for` never occurs, so it is not modelled).  Blocking calls
(`mFuture.get()` / `mFuture.wait()` before the worker finished) are modelled
by the step being enabled only once the worker events have been scheduled, so
`run` sequences place the worker events before the blocking owner call.
-/

namespace AsyncTaskSpec

/-- `AsyncTaskBase::Status` of src/asynctask.h (identical in src/AsyncTask.h). -/
inductive Status where
  | PENDING
  | RUNNING
  | FINISHED
deriving DecidableEq

/-- Numeric value of the status, following the declaration order of the enum. -/
def Status.toNat : Status → Nat
  | .PENDING => 0
  | .RUNNING => 1
  | .FINISHED => 2

/-- The total order PENDING < RUNNING < FINISHED of the spec, via `toNat`. -/
def Status.le (a b : Status) : Prop := a.toNat ≤ b.toNat

/-- `AsyncTaskIllegalStateException::eEx` of src/asynctask.h
(`IllegalStateException::eEx` in src/AsyncTask.h). -/
inductive AsyncTaskIllegalStateException where
  | TaskIsAlreadyRunning
  | TaskIsAlreadyFinished
deriving DecidableEq

/-- Result of a call that can exit either by returning a value (`ret`) or by a
thrown exception (`thr`).  Also used for the outcome of the worker computation
`postResult(doInBackground(params...))`: `ret r` means it returned `r`,
`thr e` means it raised the error `e`. -/
inductive CallResult (A Error : Type) where
  | ret (a : A)
  | thr (e : Error)
deriving DecidableEq

/-- State of the member `std::future<Result> mFuture` together with the phase
of the spawned worker:

* `invalid`  — default constructed, or consumed by `mFuture.get()`;
* `spawned`  — `std::async` launched, worker lambda body not yet entered;
* `body`     — the worker is inside `postResult(doInBackground(params...))`;
* `done r`   — the worker lambda returned `r`; `wait_for(0)` yields `ready`. -/
inductive FutureState (Result : Type) where
  | invalid
  | spawned
  | body
  | done (r : Result)
deriving DecidableEq

/-- A user-hook invocation on the owner thread (the virtual callbacks
`onPreExecute`, `onProgressUpdate`, `onPostExecute`, `onCancelled(Result)`). -/
inductive HookEvent (Progress Result : Type) where
  | preExecute
  | progressUpdate (p : Progress)
  | postExecute (r : Result)
  | onCancelled (r : Result)
deriving DecidableEq

/-- A completion hook is `onPostExecute` or `onCancelled` — the two hooks that
`finish` chooses between. -/
def isCompletionHook {Progress Result : Type} : HookEvent Progress Result → Bool
  | .postExecute _ => true
  | .onCancelled _ => true
  | _ => false

/-- The progress-storage policy of a concrete subclass: `init` is the
default-constructed container, `store` is `storeProgress`, `drain` is
`handleProgress` (new container contents, delivered snapshots in order). -/
structure ProgressPolicy (Progress PS : Type) where
  init : PS
  store : PS → Progress → PS
  drain : PS → PS × List Progress

/-- The member fields of `AsyncTaskBase` (src/asynctask.h); `pstore` is the
progress container of the concrete variant, `destroyed` marks that the
destructor ran (no member function may be called afterwards). -/
structure TaskState (PS Result Error : Type) where
  mStatus : Status
  mResult : Result
  mFuture : FutureState Result
  atCancelled : Bool
  rethrowNeeded : Bool
  eptr : Option Error
  pstore : PS
  destroyed : Bool
deriving DecidableEq

/-- A default-constructed task: PENDING, default result, invalid future,
not cancelled, no captured exception. -/
def initState {Progress PS Result Error : Type} [Inhabited Result]
    (pol : ProgressPolicy Progress PS) : TaskState PS Result Error :=
  { mStatus := .PENDING
    mResult := default
    mFuture := .invalid
    atCancelled := false
    rethrowNeeded := false
    eptr := none
    pstore := pol.init
    destroyed := false }

/-- `AsyncTaskBase::cancel()`: stores true into `atCancelled`. -/
def cancelFn {PS Result Error : Type} (s : TaskState PS Result Error) :
    TaskState PS Result Error :=
  { s with atCancelled := true }

/-- `AsyncTaskBase::execute(params)` up to the `std::async` launch: on
PENDING, sets RUNNING, invokes `onPreExecute`, launches the worker
(future becomes `spawned`); on RUNNING or FINISHED throws
`AsyncTaskIllegalStateException` leaving the state untouched. -/
def executeFn {Progress PS Result Error : Type} (s : TaskState PS Result Error) :
    TaskState PS Result Error × List (HookEvent Progress Result) ×
      CallResult Unit AsyncTaskIllegalStateException :=
  match s.mStatus with
  | .RUNNING => (s, [], .thr .TaskIsAlreadyRunning)
  | .FINISHED => (s, [], .thr .TaskIsAlreadyFinished)
  | .PENDING =>
      ({ s with mStatus := .RUNNING, mFuture := .spawned }, [.preExecute], .ret ())

/-- Entry of the worker lambda of `AsyncTaskBase::execute` (src/asynctask.h):
`if (isCancelled()) return {};` — if cancellation was already requested the
computation is skipped and the worker yields a default-constructed `Result`;
otherwise `postResult(doInBackground(params...))` begins (phase `body`). -/
def workerEnterFn {PS Result Error : Type} [Inhabited Result]
    (s : TaskState PS Result Error) : Option (TaskState PS Result Error) :=
  match s.mFuture with
  | .spawned =>
      if s.atCancelled then some { s with mFuture := .done default }
      else some { s with mFuture := .body }
  | _ => none

/-- `AsyncTaskBase::publishProgress(progress)` called by `doInBackground` on
the worker: `if (isCancelled()) return; storeProgress(progress);`. -/
def publishProgressFn {Progress PS Result Error : Type}
    (pol : ProgressPolicy Progress PS) (p : Progress)
    (s : TaskState PS Result Error) : Option (TaskState PS Result Error) :=
  match s.mFuture with
  | .body => some (if s.atCancelled then s else { s with pstore := pol.store s.pstore p })
  | _ => none

/-- Termination of the worker lambda with outcome `o` of
`postResult(doInBackground(params...))` (both run inside the same `try`):
a return value becomes the future's value; a raised error hits the
`catch (...)` block which calls `cancel()`, stores true into
`isExceptionRethrowNeededOnMainThread`, captures the exception into `eptr`,
and the lambda then returns a default-constructed `Result`. -/
def workerFinishFn {PS Result Error : Type} [Inhabited Result]
    (o : CallResult Result Error) (s : TaskState PS Result Error) :
    Option (TaskState PS Result Error) :=
  match s.mFuture with
  | .body =>
      match o with
      | .ret r => some { s with mFuture := .done r }
      | .thr e =>
          some { s with atCancelled := true, rethrowNeeded := true,
                        eptr := some e, mFuture := .done default }
  | _ => none

/-- `AsyncTaskBase::finish(result)`: stores the result, invokes
`onCancelled(mResult)` if `isCancelled()` and `onPostExecute(mResult)`
otherwise, sets FINISHED, and finally rethrows the captured exception when
`isExceptionRethrowNeededOnMainThread && eptr` (third component). -/
def finishFn {Progress PS Result Error : Type} (s : TaskState PS Result Error)
    (r : Result) :
    TaskState PS Result Error × List (HookEvent Progress Result) × Option Error :=
  ({ s with mResult := r, mStatus := .FINISHED },
   if s.atCancelled then [.onCancelled r] else [.postExecute r],
   match s.rethrowNeeded, s.eptr with
   | true, some e => some e
   | _, _ => none)

/-- `AsyncTaskBase::get()`: if not FINISHED, `finish(mFuture.get())` — the
blocking wait is modelled by the step being enabled only once the worker has
completed (future `done`); `mFuture.get()` consumes the future.  Returns
`mResult`, or exits by the exception rethrown inside `finish`.  `none` means
the call is not enabled at this point of the interleaving (the worker has not
completed yet, or the future was never made valid). -/
def getFn {Progress PS Result Error : Type} (s : TaskState PS Result Error) :
    Option (TaskState PS Result Error × List (HookEvent Progress Result) ×
      CallResult Result Error) :=
  match s.mStatus with
  | .FINISHED => some (s, [], .ret s.mResult)
  | _ =>
      match s.mFuture with
      | .done r =>
          let f := @finishFn Progress PS Result Error { s with mFuture := .invalid } r
          some (f.1, f.2.1,
            match f.2.2 with
            | some e => .thr e
            | none => .ret f.1.mResult)
      | _ => none

/-- `AsyncTaskBase::onCallbackLoop()` (src/asynctask.h): FINISHED is tested
first and immediately returns true; then PENDING or an invalid future returns
false; otherwise `wait_for(0)` — `timeout` (worker still running) calls the
virtual `handleProgress()` and returns false, `ready` performs
`finish(mFuture.get())` and returns true.  The function is total: it never
blocks. -/
def pollFn {Progress PS Result Error : Type} (pol : ProgressPolicy Progress PS)
    (s : TaskState PS Result Error) :
    TaskState PS Result Error × List (HookEvent Progress Result) ×
      CallResult Bool Error :=
  match s.mStatus with
  | .FINISHED => (s, [], .ret true)
  | .PENDING => (s, [], .ret false)
  | .RUNNING =>
      match s.mFuture with
      | .invalid => (s, [], .ret false)
      | .spawned | .body =>
          let d := pol.drain s.pstore
          ({ s with pstore := d.1 }, d.2.map .progressUpdate, .ret false)
      | .done r =>
          let f := finishFn { s with mFuture := .invalid } r
          (f.1, f.2.1,
            match f.2.2 with
            | some e => .thr e
            | none => .ret true)

/-- `AsyncTaskBase::~AsyncTaskBase()` (src/asynctask.h): if not RUNNING,
return; otherwise `if (!isCancelled()) cancel();` (net effect: `atCancelled`
becomes true), and if the future is valid, `mFuture.wait()` — modelled by the
step being enabled once the worker completed.  No user hook is invoked, no
captured exception is rethrown (third component is always `none`), the future
is not consumed. -/
def destroyFn {Progress PS Result Error : Type} (s : TaskState PS Result Error) :
    Option (TaskState PS Result Error × List (HookEvent Progress Result) ×
      Option Error) :=
  match s.mStatus with
  | .RUNNING =>
      match s.mFuture with
      | .invalid => some ({ s with atCancelled := true, destroyed := true }, [], none)
      | .done _ => some ({ s with atCancelled := true, destroyed := true }, [], none)
      | _ => none
  | _ => some ({ s with destroyed := true }, [], none)

/-- One event of an interleaved execution: the five owner-thread operations
and the three worker-thread phases. -/
inductive Ev (Progress Result Error : Type) where
  | executeOp
  | cancelOp
  | getOp
  | pollOp
  | destroyOp
  | workerEnter
  | workerPublish (p : Progress)
  | workerFinish (o : CallResult Result Error)
deriving DecidableEq

/-- One step of the interleaved semantics of src/asynctask.h; `none` means the
event is not enabled at this state.  The second component collects the user
hooks invoked on the owner thread during the step. -/
def step {Progress PS Result Error : Type} [Inhabited Result]
    (pol : ProgressPolicy Progress PS) (e : Ev Progress Result Error)
    (s : TaskState PS Result Error) :
    Option (TaskState PS Result Error × List (HookEvent Progress Result)) :=
  if s.destroyed then none
  else
    match e with
    | .executeOp => some ((@executeFn Progress PS Result Error s).1, (executeFn s).2.1)
    | .cancelOp => some (cancelFn s, [])
    | .getOp => (@getFn Progress PS Result Error s).map fun r => (r.1, r.2.1)
    | .pollOp => some ((pollFn pol s).1, (pollFn pol s).2.1)
    | .destroyOp => (@destroyFn Progress PS Result Error s).map fun r => (r.1, r.2.1)
    | .workerEnter => (workerEnterFn s).map fun s1 => (s1, [])
    | .workerPublish p => (publishProgressFn pol p s).map fun s1 => (s1, [])
    | .workerFinish o => (workerFinishFn o s).map fun s1 => (s1, [])

/-- Run an event sequence from a state, collecting all hook invocations. -/
def run {Progress PS Result Error : Type} [Inhabited Result]
    (pol : ProgressPolicy Progress PS) :
    TaskState PS Result Error → List (Ev Progress Result Error) →
      Option (TaskState PS Result Error × List (HookEvent Progress Result))
  | s, [] => some (s, [])
  | s, e :: evs =>
      match step pol e s with
      | none => none
      | some (s1, h1) =>
          match run pol s1 evs with
          | none => none
          | some (s2, h2) => some (s2, h1 ++ h2)

/-- The progress policy of the `AsyncTask` variant of src/asynctask.h: a
single latest-value slot (`ProgressContainer mProgress`, default
constructed); `storeProgress` overwrites it, `handleProgress` calls
`onProgressUpdate(mProgress.load())` leaving the slot unchanged. -/
def slotPolicy (Progress : Type) [Inhabited Progress] :
    ProgressPolicy Progress Progress :=
  { init := default
    store := fun _ p => p
    drain := fun c => (c, [c]) }

/-- `AsyncTaskPQ::ThreadSafeQueue::store(data, fnLastShouldBeOverride)`
(src/asynctask.h): if the queue is empty or the predicate rejects the back
element, push; otherwise overwrite the back element.  The queue is a list
with the front at the head and the back at the last position. -/
def pqStore {Progress : Type} (ovr : Progress → Progress → Bool)
    (q : List Progress) (d : Progress) : List Progress :=
  match q.getLast? with
  | none => q ++ [d]
  | some b => if ovr b d then q.dropLast ++ [d] else q ++ [d]

/-- The progress policy of the `AsyncTaskPQ` variant: an initially empty
queue, `storeProgress` pushing through `ThreadSafeQueue::store` with the
merge predicate `isLastProgressShouldBeOverride`, and `handleProgress`
moving the whole queue out and delivering every item front to back. -/
def pqPolicy {Progress : Type} (ovr : Progress → Progress → Bool) :
    ProgressPolicy Progress (List Progress) :=
  { init := []
    store := pqStore ovr
    drain := fun q => ([], q) }

namespace Legacy

/-!
The legacy variant src/AsyncTask.h.  `Status`, the cancellation flag, the
exception members, `execute`, `get`, `cancel` and `finish` coincide with
src/asynctask.h, so `executeFn`, `cancelFn`, `getFn`, `finishFn` and
`workerFinishFn` are reused.  Its progress container is the single atomic
slot `atProgress` (so `PS := Progress`).  It differs in its worker lambda
(no pre-start cancellation check), in `onCallbackLoop` (the
`PENDING || !mFuture.valid()` test comes before the FINISHED test) and in
its destructor (which calls `finish(mFuture.get())`).
-/

/-- Entry of the worker lambda of `AsyncTask::execute` (src/AsyncTask.h):
there is no `isCancelled()` pre-check — `postResult(doInBackground(...))`
starts unconditionally. -/
def workerEnterFn {PS Result Error : Type} (s : TaskState PS Result Error) :
    Option (TaskState PS Result Error) :=
  match s.mFuture with
  | .spawned => some { s with mFuture := .body }
  | _ => none

/-- `AsyncTask::publishProgress(progress)` (src/AsyncTask.h):
`if (isCancelled()) return; atProgress.store(progress);`. -/
def publishProgressFn {Progress Result Error : Type} (p : Progress)
    (s : TaskState Progress Result Error) : Option (TaskState Progress Result Error) :=
  match s.mFuture with
  | .body => some (if s.atCancelled then s else { s with pstore := p })
  | _ => none

/-- `AsyncTask::onCallbackLoop()` (src/AsyncTask.h): first
`if (mStatus == PENDING || !mFuture.valid()) return false;`, only then
`if (mStatus == FINISHED) return true;`, then `wait_for(0)` as in the other
variant with `onProgressUpdate(atProgress.load())` on `timeout`. -/
def pollFn {Progress Result Error : Type} (s : TaskState Progress Result Error) :
    TaskState Progress Result Error × List (HookEvent Progress Result) ×
      CallResult Bool Error :=
  match s.mStatus, s.mFuture with
  | .PENDING, _ => (s, [], .ret false)
  | _, .invalid => (s, [], .ret false)
  | .FINISHED, _ => (s, [], .ret true)
  | _, .spawned | _, .body => (s, [.progressUpdate s.pstore], .ret false)
  | _, .done r =>
      let f := finishFn { s with mFuture := .invalid } r
      (f.1, f.2.1,
        match f.2.2 with
        | some e => .thr e
        | none => .ret true)

/-- `AsyncTask::~AsyncTask()` (src/AsyncTask.h): if not RUNNING, return;
otherwise cancel if not yet cancelled, and if the future is valid perform
`finish(mFuture.get())` — which invokes a completion hook and rethrows a
captured exception (third component) from the destructor. -/
def destroyFn {Progress Result Error : Type} (s : TaskState Progress Result Error) :
    Option (TaskState Progress Result Error × List (HookEvent Progress Result) ×
      Option Error) :=
  match s.mStatus with
  | .RUNNING =>
      match s.mFuture with
      | .invalid => some ({ s with atCancelled := true, destroyed := true }, [], none)
      | .done r =>
          let f := finishFn { s with atCancelled := true, mFuture := .invalid } r
          some ({ f.1 with destroyed := true }, f.2.1, f.2.2)
      | _ => none
  | _ => some ({ s with destroyed := true }, [], none)

/-- One step of the interleaved semantics of src/AsyncTask.h. -/
def step {Progress Result Error : Type} [Inhabited Result]
    (e : Ev Progress Result Error) (s : TaskState Progress Result Error) :
    Option (TaskState Progress Result Error × List (HookEvent Progress Result)) :=
  if s.destroyed then none
  else
    match e with
    | .executeOp => some ((@executeFn Progress Progress Result Error s).1, (executeFn s).2.1)
    | .cancelOp => some (cancelFn s, [])
    | .getOp => (@getFn Progress Progress Result Error s).map fun r => (r.1, r.2.1)
    | .pollOp => some ((pollFn s).1, (pollFn s).2.1)
    | .destroyOp => (destroyFn s).map fun r => (r.1, r.2.1)
    | .workerEnter => (workerEnterFn s).map fun s1 => (s1, [])
    | .workerPublish p => (publishProgressFn p s).map fun s1 => (s1, [])
    | .workerFinish o => (workerFinishFn o s).map fun s1 => (s1, [])

/-- Run an event sequence in the legacy variant. -/
def run {Progress Result Error : Type} [Inhabited Result] :
    TaskState Progress Result Error → List (Ev Progress Result Error) →
      Option (TaskState Progress Result Error × List (HookEvent Progress Result))
  | s, [] => some (s, [])
  | s, e :: evs =>
      match step e s with
      | none => none
      | some (s1, h1) =>
          match run s1 evs with
          | none => none
          | some (s2, h2) => some (s2, h1 ++ h2)

end Legacy

/-- A default-constructed legacy task over concrete types, used by the
counterexample runs. -/
def legacyInitNat : TaskState Nat Nat Nat := initState (slotPolicy Nat)

/-!  ## Theorems  -/

/-- Claim C5: `execute` succeeds only from PENDING: from RUNNING it raises
`TaskIsAlreadyRunning`, from FINISHED it raises `TaskIsAlreadyFinished`, and
in both failure cases every member field (status, result, future, cancellation
flag, captured exception, progress store) is left unchanged, so the first
activation's result is unaffected by the failed second call. -/
theorem execute_precondition {Progress PS Result Error : Type}
    (res : Result) (fut : FutureState Result) (c rn d : Bool) (ep : Option Error)
    (ps : PS) :
    @executeFn Progress PS Result Error
        ⟨.RUNNING, res, fut, c, rn, ep, ps, d⟩ =
      (⟨.RUNNING, res, fut, c, rn, ep, ps, d⟩, [], .thr .TaskIsAlreadyRunning) ∧
    @executeFn Progress PS Result Error
        ⟨.FINISHED, res, fut, c, rn, ep, ps, d⟩ =
      (⟨.FINISHED, res, fut, c, rn, ep, ps, d⟩, [], .thr .TaskIsAlreadyFinished) :=
  ⟨rfl, rfl⟩

/-- Claim C2: every error `e` raised inside the worker by the background
computation or by the result post-processing hook (both run inside the same
try block) is caught by the worker-side boundary: the cancellation flag is
forced to true, the rethrow flag is set, the error object is stored in
`eptr`, and the worker yields a default-constructed result.  Moreover the
boundary is total: for every outcome the worker lambda completes normally,
so no error propagates out of the worker thread. -/
theorem worker_failure_boundary {PS Result Error : Type} [Inhabited Result]
    (st : Status) (res : Result) (c rn d : Bool) (ep : Option Error) (ps : PS) :
    (∀ e : Error,
      workerFinishFn (.thr e) ⟨st, res, .body, c, rn, ep, ps, d⟩ =
        some ⟨st, res, .done default, true, true, some e, ps, d⟩) ∧
    (∀ o : CallResult Result Error,
      (workerFinishFn o ⟨st, res, .body, c, rn, ep, ps, d⟩).isSome = true) :=
  ⟨fun _ => rfl, fun o => by cases o <;> rfl⟩

/-- Claim C3: after a computation failure (run `execute`, worker enters, the
computation raises `e`), the first `get()` performs `finish` and exits by
rethrowing `e` on the owner thread, with the task left FINISHED and the
default result recorded even though the call exited by exception; a second
`get()` does not rethrow again but returns the stored default result. -/
theorem failure_rethrow_once {Progress PS Result Error : Type} [Inhabited Result]
    (pol : ProgressPolicy Progress PS) (e : Error) :
    run pol (initState pol : TaskState PS Result Error)
        [.executeOp, .workerEnter, .workerFinish (.thr e)] =
      some (⟨.RUNNING, default, .done default, true, true, some e, pol.init, false⟩,
            [.preExecute]) ∧
    @getFn Progress PS Result Error
        ⟨.RUNNING, default, .done default, true, true, some e, pol.init, false⟩ =
      some (⟨.FINISHED, default, .invalid, true, true, some e, pol.init, false⟩,
            [.onCancelled default], .thr e) ∧
    @getFn Progress PS Result Error
        ⟨.FINISHED, default, .invalid, true, true, some e, pol.init, false⟩ =
      some (⟨.FINISHED, default, .invalid, true, true, some e, pol.init, false⟩,
            [], .ret default) :=
  ⟨rfl, rfl, rfl⟩

/-- `ThreadSafeQueue::store` with a never-overriding predicate is a plain
push to the back. -/
theorem pqStore_false {α : Type} (q : List α) (d : α) :
    pqStore (fun _ _ => false) q d = q ++ [d] := by
  unfold pqStore
  split <;> simp

/-- Folding never-overriding stores appends all pushed items in order. -/
theorem foldl_pqStore_false {α : Type} (xs : List α) :
    ∀ acc : List α, List.foldl (pqStore (fun _ _ => false)) acc xs = acc ++ xs := by
  induction xs with
  | nil => intro acc; simp
  | cons x xs ih =>
      intro acc
      simp [List.foldl_cons, pqStore_false, ih]

/-- Claim C8: in the ordered-queue variant `AsyncTaskPQ`, pushing 1, 2, 3 with
an always-true merge predicate leaves exactly one queued snapshot, 3; with an
always-false predicate the queue holds 1, 2, 3 in FIFO order (and in general
an always-false predicate drops nothing: the queue is exactly the push
sequence); a drain (`handleProgress`) swaps out the whole queue and delivers
every remaining item in push order to the progress hook. -/
theorem pq_merge_and_drain :
    List.foldl (pqStore (fun _ _ => true)) ([] : List Nat) [1, 2, 3] = [3] ∧
    List.foldl (pqStore (fun _ _ => false)) ([] : List Nat) [1, 2, 3] = [1, 2, 3] ∧
    (∀ (α : Type) (xs : List α),
      List.foldl (pqStore (fun _ _ => false)) [] xs = xs) ∧
    (∀ (Progress Result Error : Type) (ovr : Progress → Progress → Bool)
        (q : List Progress) (res : Result) (c rn d : Bool) (ep : Option Error),
      @pollFn Progress (List Progress) Result Error (pqPolicy ovr)
          ⟨.RUNNING, res, .body, c, rn, ep, q, d⟩ =
        (⟨.RUNNING, res, .body, c, rn, ep, [], d⟩,
         q.map .progressUpdate, .ret false)) := by
  refine ⟨rfl, rfl, fun α xs => ?_, fun _ _ _ _ _ _ _ _ _ _ => rfl⟩
  simpa using foldl_pqStore_false xs []

/-- Claim C4, counterexample: in the src/AsyncTask.h variant the claim fails.
A task is executed, its computation raises 10; destroying the still-RUNNING
task performs `finish(mFuture.get())`: it invokes the `onCancelled` hook and
rethrows the captured failure (final component `some 10`) from the
destructor. -/
theorem legacy_teardown_rethrow_cex :
    ((Legacy.run legacyInitNat [.executeOp, .workerEnter, .workerFinish (.thr 10)]).bind
        fun r => Legacy.destroyFn r.1) =
      some (⟨.FINISHED, 0, .invalid, true, true, some 10, 0, true⟩,
            [.onCancelled 0], some 10) :=
  rfl

/-- Claim C4 as amended: in the `AsyncTaskBase` variant (src/asynctask.h),
destroying a RUNNING task forces the cancellation flag and synchronously
waits for the worker (the step is enabled once the worker completed or the
future was never valid), invoking no user hook and rethrowing no captured
failure; the legacy src/AsyncTask.h destructor instead performs `finish`
on a RUNNING task with a completed worker, invoking a completion hook and
rethrowing any captured failure. -/
theorem teardown_no_rethrow {Progress PS Result Error : Type}
    (res r : Result) (c rn : Bool) (ep : Option Error) (ps : PS) :
    @destroyFn Progress PS Result Error ⟨.RUNNING, res, .done r, c, rn, ep, ps, false⟩ =
      some (⟨.RUNNING, res, .done r, true, rn, ep, ps, true⟩, [], none) ∧
    @destroyFn Progress PS Result Error ⟨.RUNNING, res, .invalid, c, rn, ep, ps, false⟩ =
      some (⟨.RUNNING, res, .invalid, true, rn, ep, ps, true⟩, [], none) ∧
    (∀ e : Error,
      @Legacy.destroyFn Result Result Error
          ⟨.RUNNING, res, .done r, c, true, some e, res, false⟩ =
        some (⟨.FINISHED, r, .invalid, true, true, some e, res, true⟩,
              [.onCancelled r], some e)) :=
  ⟨rfl, rfl, fun _ => rfl⟩

/-- Claim C6, counterexample: in the src/AsyncTask.h variant the claim fails.
After a successful run and a `get()` that consumed the future, the task is
FINISHED, yet `onCallbackLoop` returns false (still running) because the
`!mFuture.valid()` test precedes the FINISHED test. -/
theorem legacy_poll_after_get_cex :
    ((Legacy.run legacyInitNat
        [.executeOp, .workerEnter, .workerFinish (.ret 7), .getOp]).map
        fun r => (r.1.mStatus, (@Legacy.pollFn Nat Nat Nat r.1).2.2)) =
      some (.FINISHED, .ret false) :=
  rfl

/-- Claim C6 as amended: in the `AsyncTaskBase` variant (src/asynctask.h),
`onCallbackLoop` is total (never blocks) and returns true immediately
whenever the status is FINISHED — for every future state, in particular the
invalid one left by a prior `get()`; it returns false on PENDING and on a
RUNNING task whose worker was never started (invalid future); while the
worker is not ready it delivers the pending progress through `handleProgress`
and returns false; when the worker is ready it performs `finish` and returns
true (rethrowing a captured failure if one is flagged).  The legacy
src/AsyncTask.h variant instead returns false from every FINISHED state,
since FINISHED implies the future was consumed. -/
theorem poll_status_behavior {Progress PS Result Error : Type}
    (pol : ProgressPolicy Progress PS) (res r : Result) (fut : FutureState Result)
    (c rn d : Bool) (ep : Option Error) (ps : PS) :
    @pollFn Progress PS Result Error pol ⟨.FINISHED, res, fut, c, rn, ep, ps, d⟩ =
      (⟨.FINISHED, res, fut, c, rn, ep, ps, d⟩, [], .ret true) ∧
    @pollFn Progress PS Result Error pol ⟨.PENDING, res, fut, c, rn, ep, ps, d⟩ =
      (⟨.PENDING, res, fut, c, rn, ep, ps, d⟩, [], .ret false) ∧
    @pollFn Progress PS Result Error pol ⟨.RUNNING, res, .invalid, c, rn, ep, ps, d⟩ =
      (⟨.RUNNING, res, .invalid, c, rn, ep, ps, d⟩, [], .ret false) ∧
    @pollFn Progress PS Result Error pol ⟨.RUNNING, res, .spawned, c, rn, ep, ps, d⟩ =
      (⟨.RUNNING, res, .spawned, c, rn, ep, (pol.drain ps).1, d⟩,
       (pol.drain ps).2.map .progressUpdate, .ret false) ∧
    @pollFn Progress PS Result Error pol ⟨.RUNNING, res, .body, c, rn, ep, ps, d⟩ =
      (⟨.RUNNING, res, .body, c, rn, ep, (pol.drain ps).1, d⟩,
       (pol.drain ps).2.map .progressUpdate, .ret false) ∧
    @pollFn Progress PS Result Error pol ⟨.RUNNING, res, .done r, c, rn, ep, ps, d⟩ =
      (⟨.FINISHED, r, .invalid, c, rn, ep, ps, d⟩,
       if c then [.onCancelled r] else [.postExecute r],
       match rn, ep with
       | true, some e => .thr e
       | _, _ => .ret true) ∧
    @Legacy.pollFn Result Result Error
        ⟨.FINISHED, res, .invalid, c, rn, ep, r, d⟩ =
      (⟨.FINISHED, res, .invalid, c, rn, ep, r, d⟩, [], .ret false) := by
  refine ⟨rfl, rfl, rfl, rfl, rfl, ?_, rfl⟩
  cases rn <;> cases ep <;> rfl

/-- Claim C7, counterexample: in the src/AsyncTask.h variant the claim fails.
Cancellation is requested after `execute` but before the worker lambda body
runs; the worker then still enters `postResult(doInBackground(...))` (future
phase `body`): the legacy worker has no pre-start cancellation check, so the
background computation is invoked although cancellation was already
requested. -/
theorem legacy_worker_runs_after_cancel_cex :
    ((Legacy.run legacyInitNat [.executeOp, .cancelOp, .workerEnter]).map
        fun r => (r.1.atCancelled, r.1.mFuture)) =
      some (true, .body) :=
  rfl

instance (a b : Status) : Decidable (a.le b) := Nat.decLe a.toNat b.toNat

/-- Progress-update hooks are not completion hooks. -/
theorem countP_completion_map {Progress Result : Type} (l : List Progress) :
    (l.map (@HookEvent.progressUpdate Progress Result)).countP isCompletionHook = 0 := by
  induction l with
  | nil => rfl
  | cons x xs ih => simp [List.countP_cons, isCompletionHook, ih]

/-- Completion-hook accounting for one step: a step from a non-FINISHED state
to a FINISHED state invokes exactly one completion hook (it performed
`finish`), every other step invokes none. -/
theorem step_hook_count {Progress PS Result Error : Type} [Inhabited Result]
    (pol : ProgressPolicy Progress PS) (e : Ev Progress Result Error)
    (s s2 : TaskState PS Result Error) (h : List (HookEvent Progress Result))
    (hs : step pol e s = some (s2, h)) :
    (if s.mStatus = .FINISHED then 1 else 0) + h.countP isCompletionHook =
      (if s2.mStatus = .FINISHED then 1 else 0) := by
  obtain ⟨st, res, fut, c, rn, ep, ps, d⟩ := s
  cases d
  case true => simp [step] at hs
  case false =>
    cases e with
    | executeOp =>
        cases st <;>
          simp [step, executeFn] at hs <;>
          obtain ⟨rfl, rfl⟩ := hs <;>
          simp [isCompletionHook]
    | cancelOp =>
        simp [step, cancelFn] at hs
        obtain ⟨rfl, rfl⟩ := hs
        simp
    | getOp =>
        cases st <;> cases fut <;> cases c <;>
          simp [step, getFn, finishFn] at hs <;>
          obtain ⟨rfl, rfl⟩ := hs <;>
          simp [isCompletionHook, List.countP_cons]
    | pollOp =>
        cases st <;> cases fut <;> cases c <;>
          simp [step, pollFn, finishFn] at hs <;>
          obtain ⟨rfl, rfl⟩ := hs <;>
          simp [isCompletionHook, List.countP_cons, countP_completion_map]
    | destroyOp =>
        cases st <;> cases fut <;>
          simp [step, destroyFn] at hs <;>
          obtain ⟨rfl, rfl⟩ := hs <;>
          simp
    | workerEnter =>
        cases fut <;> cases c <;> simp [step, workerEnterFn] at hs <;>
          obtain ⟨rfl, rfl⟩ := hs <;> simp
    | workerPublish p =>
        cases fut <;> cases c <;> simp [step, publishProgressFn] at hs <;>
          obtain ⟨rfl, rfl⟩ := hs <;> simp
    | workerFinish o =>
        cases fut <;> cases o <;> simp [step, workerFinishFn] at hs <;>
          obtain ⟨rfl, rfl⟩ := hs <;> simp

/-- Completion-hook accounting along a whole run. -/
theorem run_hook_count {Progress PS Result Error : Type} [Inhabited Result]
    (pol : ProgressPolicy Progress PS) :
    ∀ (evs : List (Ev Progress Result Error)) (s s2 : TaskState PS Result Error)
      (h : List (HookEvent Progress Result)),
      run pol s evs = some (s2, h) →
      (if s.mStatus = .FINISHED then 1 else 0) + h.countP isCompletionHook =
        (if s2.mStatus = .FINISHED then 1 else 0) := by
  intro evs
  induction evs with
  | nil =>
      intro s s2 h hr
      simp [run] at hr
      obtain ⟨rfl, rfl⟩ := hr
      simp
  | cons e rest ih =>
      intro s s2 h hr
      simp only [run] at hr
      cases hstep : step pol e s with
      | none => rw [hstep] at hr; exact absurd hr (by simp)
      | some p =>
          obtain ⟨s1, h1⟩ := p
          rw [hstep] at hr
          dsimp only at hr
          cases hrun : run pol s1 rest with
          | none => rw [hrun] at hr; exact absurd hr (by simp)
          | some q =>
              obtain ⟨s3, h2⟩ := q
              rw [hrun] at hr
              simp at hr
              obtain ⟨rfl, rfl⟩ := hr
              have a1 := step_hook_count pol e s s1 h1 hstep
              have a2 := ih s1 s3 h2 hrun
              rw [List.countP_append]
              omega

/-- Claim C1: `finish` records the outcome as the result, invokes exactly one
of the two completion hooks — `onCancelled` when the cancellation flag is set
(whether by `cancel()` or by the worker-side failure boundary), otherwise
`onPostExecute` — and sets the status to FINISHED; and over any event
sequence from a fresh task, the number of completion-hook invocations is one
if the task reached FINISHED (the single `finish` performed by the first
`get`/`poll` that observed completion) and zero otherwise — so neither hook
is ever invoked more than once over the task's lifetime. -/
theorem finish_exactly_once {Progress PS Result Error : Type} [Inhabited Result] :
    (∀ (s : TaskState PS Result Error) (r : Result),
      (@finishFn Progress PS Result Error s r).1 =
          { s with mResult := r, mStatus := .FINISHED } ∧
      (@finishFn Progress PS Result Error s r).2.1 =
          (if s.atCancelled then [.onCancelled r] else [.postExecute r]) ∧
      ((@finishFn Progress PS Result Error s r).2.1).countP isCompletionHook = 1) ∧
    (∀ (pol : ProgressPolicy Progress PS) (evs : List (Ev Progress Result Error))
        (s2 : TaskState PS Result Error) (h : List (HookEvent Progress Result)),
      run pol (initState pol) evs = some (s2, h) →
      h.countP isCompletionHook = (if s2.mStatus = .FINISHED then 1 else 0)) := by
  constructor
  · intro s r
    refine ⟨rfl, rfl, ?_⟩
    cases hc : s.atCancelled <;> simp [finishFn, hc, List.countP_cons, isCompletionHook]
  · intro pol evs s2 h hr
    have := run_hook_count pol evs (initState pol) s2 h hr
    simpa [initState] using this

/-- Witness for C1: the run `execute`, worker completes with 7, `get` —
the hook trace is `[onPreExecute, onPostExecute 7]`: one completion hook. -/
theorem finish_exactly_once_witness :
    List.countP isCompletionHook
        [@HookEvent.preExecute Nat Nat, HookEvent.postExecute 7] =
      (if Status.FINISHED = Status.FINISHED then 1 else 0) :=
  (@finish_exactly_once Nat Nat Nat Nat _).2 (slotPolicy Nat)
    [.executeOp, .workerEnter, .workerFinish (.ret 7), .getOp]
    ⟨.FINISHED, 7, .invalid, false, false, none, 0, false⟩
    [.preExecute, .postExecute 7] rfl

/-- Shape of a status change in one step: either the status is unchanged, or
`execute` moved PENDING to RUNNING, or `get`/`poll` performed `finish` on a
completed worker and moved to FINISHED (and from PENDING only `get` could do
so, and only with an already-completed future). -/
theorem step_status_shape {Progress PS Result Error : Type} [Inhabited Result]
    (pol : ProgressPolicy Progress PS) (e : Ev Progress Result Error)
    (s s2 : TaskState PS Result Error) (h : List (HookEvent Progress Result))
    (hs : step pol e s = some (s2, h)) :
    s2.mStatus = s.mStatus ∨
    (s.mStatus = .PENDING ∧ s2.mStatus = .RUNNING ∧ e = .executeOp) ∨
    (s2.mStatus = .FINISHED ∧ (e = .getOp ∨ e = .pollOp) ∧
      (∃ r, s.mFuture = .done r) ∧ (s.mStatus = .PENDING → e = .getOp)) := by
  obtain ⟨st, res, fut, c, rn, ep, ps, d⟩ := s
  cases d
  case true => simp [step] at hs
  case false =>
    cases e with
    | executeOp =>
        cases st <;> simp [step, executeFn] at hs <;>
          obtain ⟨rfl, rfl⟩ := hs <;> simp
    | cancelOp =>
        simp [step, cancelFn] at hs
        obtain ⟨rfl, rfl⟩ := hs
        simp [cancelFn]
    | getOp =>
        cases st <;> cases fut <;> cases c <;>
          simp [step, getFn, finishFn] at hs <;>
          obtain ⟨rfl, rfl⟩ := hs <;> simp
    | pollOp =>
        cases st <;> cases fut <;> cases c <;>
          simp [step, pollFn, finishFn] at hs <;>
          obtain ⟨rfl, rfl⟩ := hs <;> simp
    | destroyOp =>
        cases st <;> cases fut <;>
          simp [step, destroyFn] at hs <;>
          obtain ⟨rfl, rfl⟩ := hs <;> simp
    | workerEnter =>
        cases fut <;> cases c <;> simp [step, workerEnterFn] at hs <;>
          obtain ⟨rfl, rfl⟩ := hs <;> simp
    | workerPublish p =>
        cases fut <;> cases c <;> simp [step, publishProgressFn] at hs <;>
          obtain ⟨rfl, rfl⟩ := hs <;> simp
    | workerFinish o =>
        cases fut <;> cases o <;> simp [step, workerFinishFn] at hs <;>
          obtain ⟨rfl, rfl⟩ := hs <;> simp

/-- The status never decreases in one step. -/
theorem step_status_le {Progress PS Result Error : Type} [Inhabited Result]
    (pol : ProgressPolicy Progress PS) (e : Ev Progress Result Error)
    (s s2 : TaskState PS Result Error) (h : List (HookEvent Progress Result))
    (hs : step pol e s = some (s2, h)) : s.mStatus.le s2.mStatus := by
  rcases step_status_shape pol e s s2 h hs with h1 | ⟨h1, h2, _⟩ | ⟨h1, _⟩
  · rw [h1]; exact Nat.le_refl _
  · rw [h1, h2]; decide
  · rw [h1]; cases s.mStatus <;> decide

/-- The status never decreases along a run. -/
theorem run_status_le {Progress PS Result Error : Type} [Inhabited Result]
    (pol : ProgressPolicy Progress PS) :
    ∀ (evs : List (Ev Progress Result Error)) (s s2 : TaskState PS Result Error)
      (h : List (HookEvent Progress Result)),
      run pol s evs = some (s2, h) → s.mStatus.le s2.mStatus := by
  intro evs
  induction evs with
  | nil =>
      intro s s2 h hr
      simp [run] at hr
      obtain ⟨rfl, rfl⟩ := hr
      exact Nat.le_refl _
  | cons e rest ih =>
      intro s s2 h hr
      simp only [run] at hr
      cases hstep : step pol e s with
      | none => rw [hstep] at hr; exact absurd hr (by simp)
      | some p =>
          obtain ⟨s1, h1⟩ := p
          rw [hstep] at hr
          dsimp only at hr
          cases hrun : run pol s1 rest with
          | none => rw [hrun] at hr; exact absurd hr (by simp)
          | some q =>
              obtain ⟨s3, h2⟩ := q
              rw [hrun] at hr
              simp at hr
              obtain ⟨rfl, rfl⟩ := hr
              exact Nat.le_trans (step_status_le pol e s s1 h1 hstep)
                (ih s1 s3 h2 hrun)

/-- One step preserves the invariant that a PENDING task has an invalid
future (the worker is only spawned by `execute`, which leaves PENDING). -/
theorem step_pending_invalid {Progress PS Result Error : Type} [Inhabited Result]
    (pol : ProgressPolicy Progress PS) (e : Ev Progress Result Error)
    (s s2 : TaskState PS Result Error) (h : List (HookEvent Progress Result))
    (hs : step pol e s = some (s2, h))
    (hi : s.mStatus = .PENDING → s.mFuture = .invalid) :
    s2.mStatus = .PENDING → s2.mFuture = .invalid := by
  obtain ⟨st, res, fut, c, rn, ep, ps, d⟩ := s
  cases d
  case true => simp [step] at hs
  case false =>
    cases e with
    | executeOp =>
        cases st <;> simp [step, executeFn] at hs <;>
          obtain ⟨rfl, rfl⟩ := hs <;> simp_all
    | cancelOp =>
        simp [step, cancelFn] at hs
        obtain ⟨rfl, rfl⟩ := hs
        simp_all [cancelFn]
    | getOp =>
        cases st <;> cases fut <;> cases c <;>
          simp [step, getFn, finishFn] at hs <;>
          obtain ⟨rfl, rfl⟩ := hs <;> simp_all
    | pollOp =>
        cases st <;> cases fut <;> cases c <;>
          simp [step, pollFn, finishFn] at hs <;>
          obtain ⟨rfl, rfl⟩ := hs <;> simp_all
    | destroyOp =>
        cases st <;> cases fut <;>
          simp [step, destroyFn] at hs <;>
          obtain ⟨rfl, rfl⟩ := hs <;> simp_all
    | workerEnter =>
        cases fut <;> cases c <;> simp [step, workerEnterFn] at hs <;>
          obtain ⟨rfl, rfl⟩ := hs <;> simp_all
    | workerPublish p =>
        cases fut <;> cases c <;> simp [step, publishProgressFn] at hs <;>
          obtain ⟨rfl, rfl⟩ := hs <;> simp_all
    | workerFinish o =>
        cases fut <;> cases o <;> simp [step, workerFinishFn] at hs <;>
          obtain ⟨rfl, rfl⟩ := hs <;> simp_all

/-- Along a run from a fresh task, PENDING implies an invalid future. -/
theorem run_pending_invalid {Progress PS Result Error : Type} [Inhabited Result]
    (pol : ProgressPolicy Progress PS) :
    ∀ (evs : List (Ev Progress Result Error)) (s s2 : TaskState PS Result Error)
      (h : List (HookEvent Progress Result)),
      run pol s evs = some (s2, h) →
      (s.mStatus = .PENDING → s.mFuture = .invalid) →
      s2.mStatus = .PENDING → s2.mFuture = .invalid := by
  intro evs
  induction evs with
  | nil =>
      intro s s2 h hr hi
      simp [run] at hr
      obtain ⟨rfl, rfl⟩ := hr
      exact hi
  | cons e rest ih =>
      intro s s2 h hr hi
      simp only [run] at hr
      cases hstep : step pol e s with
      | none => rw [hstep] at hr; exact absurd hr (by simp)
      | some p =>
          obtain ⟨s1, h1⟩ := p
          rw [hstep] at hr
          dsimp only at hr
          cases hrun : run pol s1 rest with
          | none => rw [hrun] at hr; exact absurd hr (by simp)
          | some q =>
              obtain ⟨s3, h2⟩ := q
              rw [hrun] at hr
              simp at hr
              obtain ⟨rfl, rfl⟩ := hr
              exact ih s1 s3 h2 hrun
                (step_pending_invalid pol e s s1 h1 hstep hi)

/-- Claim C9: the status is monotone in the total order
PENDING < RUNNING < FINISHED over every run; no step leaves FINISHED;
`execute` is the only step that moves a task into RUNNING (and only from
PENDING); only `get` or `poll` (which perform `finish`) move a task into
FINISHED; along any run from a fresh task a PENDING task has an invalid
future, and under that invariant no step moves PENDING directly to FINISHED
(RUNNING is never skipped). -/
theorem status_monotone {Progress PS Result Error : Type} [Inhabited Result] :
    (∀ (pol : ProgressPolicy Progress PS) (evs : List (Ev Progress Result Error))
        (s s2 : TaskState PS Result Error) (h : List (HookEvent Progress Result)),
      run pol s evs = some (s2, h) → s.mStatus.le s2.mStatus) ∧
    (∀ (pol : ProgressPolicy Progress PS) (e : Ev Progress Result Error)
        (s s2 : TaskState PS Result Error) (h : List (HookEvent Progress Result)),
      step pol e s = some (s2, h) → s.mStatus = .FINISHED →
      s2.mStatus = .FINISHED) ∧
    (∀ (pol : ProgressPolicy Progress PS) (e : Ev Progress Result Error)
        (s s2 : TaskState PS Result Error) (h : List (HookEvent Progress Result)),
      step pol e s = some (s2, h) → s.mStatus ≠ .RUNNING →
      s2.mStatus = .RUNNING → e = .executeOp ∧ s.mStatus = .PENDING) ∧
    (∀ (pol : ProgressPolicy Progress PS) (e : Ev Progress Result Error)
        (s s2 : TaskState PS Result Error) (h : List (HookEvent Progress Result)),
      step pol e s = some (s2, h) → s.mStatus ≠ .FINISHED →
      s2.mStatus = .FINISHED → e = .getOp ∨ e = .pollOp) ∧
    (∀ (pol : ProgressPolicy Progress PS) (evs : List (Ev Progress Result Error))
        (s2 : TaskState PS Result Error) (h : List (HookEvent Progress Result)),
      run pol (initState pol) evs = some (s2, h) →
      s2.mStatus = .PENDING → s2.mFuture = .invalid) ∧
    (∀ (pol : ProgressPolicy Progress PS) (e : Ev Progress Result Error)
        (s s2 : TaskState PS Result Error) (h : List (HookEvent Progress Result)),
      step pol e s = some (s2, h) → s.mStatus = .PENDING →
      s.mFuture = .invalid → s2.mStatus ≠ .FINISHED) := by
  refine ⟨run_status_le, ?_, ?_, ?_, ?_, ?_⟩
  · intro pol e s s2 h hs hf
    rcases step_status_shape pol e s s2 h hs with h1 | ⟨h1, _⟩ | ⟨h1, _⟩
    · rw [h1, hf]
    · rw [h1] at hf; exact absurd hf (by decide)
    · exact h1
  · intro pol e s s2 h hs hnr hr
    rcases step_status_shape pol e s s2 h hs with h1 | ⟨h1, h2, h3⟩ | ⟨h1, _⟩
    · rw [h1] at hr; exact absurd hr hnr
    · exact ⟨h3, h1⟩
    · rw [h1] at hr; exact absurd hr (by decide)
  · intro pol e s s2 h hs hnf hf
    rcases step_status_shape pol e s s2 h hs with h1 | ⟨h1, h2, h3⟩ | ⟨h1, h2, _⟩
    · rw [h1] at hf; exact absurd hf hnf
    · rw [h2] at hf; exact absurd hf (by decide)
    · exact h2
  · intro pol evs s2 h hr
    exact run_pending_invalid pol evs (initState pol) s2 h hr (fun _ => rfl)
  · intro pol e s s2 h hs hp hinv hf
    rcases step_status_shape pol e s s2 h hs with h1 | ⟨h1, h2, h3⟩ | ⟨h1, h2, ⟨r, h3⟩, h4⟩
    · rw [h1, hp] at hf; exact absurd hf (by decide)
    · rw [h2] at hf; exact absurd hf (by decide)
    · rw [hinv] at h3; exact absurd h3 (by simp)

/-- Witness for C9: each conjunct applied at a concrete state or run. -/
theorem status_monotone_witness :
    Status.le Status.PENDING Status.RUNNING ∧
    Status.FINISHED = Status.FINISHED ∧
    (@Ev.executeOp Nat Nat Nat = .executeOp ∧
      Status.PENDING = Status.PENDING) ∧
    (@Ev.getOp Nat Nat Nat = .getOp ∨ @Ev.getOp Nat Nat Nat = .pollOp) ∧
    @FutureState.invalid Nat = .invalid ∧
    Status.PENDING ≠ Status.FINISHED := by
  have hm := @status_monotone Nat Nat Nat Nat _
  refine ⟨?_, ?_, ?_, ?_, ?_, ?_⟩
  · exact hm.1 (slotPolicy Nat) [.executeOp] (initState (slotPolicy Nat))
      ⟨.RUNNING, 0, .spawned, false, false, none, 0, false⟩ [.preExecute] rfl
  · exact hm.2.1 (slotPolicy Nat) .cancelOp
      ⟨.FINISHED, 0, .invalid, false, false, none, 0, false⟩
      ⟨.FINISHED, 0, .invalid, true, false, none, 0, false⟩ [] rfl rfl
  · exact hm.2.2.1 (slotPolicy Nat) .executeOp (initState (slotPolicy Nat))
      ⟨.RUNNING, 0, .spawned, false, false, none, 0, false⟩ [.preExecute] rfl
      (by decide) rfl
  · exact hm.2.2.2.1 (slotPolicy Nat) .getOp
      ⟨.RUNNING, 0, .done 7, false, false, none, 0, false⟩
      ⟨.FINISHED, 7, .invalid, false, false, none, 0, false⟩ [.postExecute 7] rfl
      (by decide) rfl
  · exact hm.2.2.2.2.1 (slotPolicy Nat) [] (initState (slotPolicy Nat)) [] rfl rfl
  · exact hm.2.2.2.2.2 (slotPolicy Nat) .cancelOp (initState (slotPolicy Nat))
      ⟨.PENDING, 0, .invalid, true, false, none, 0, false⟩ [] rfl rfl rfl

/-- A step other than `workerEnter` keeps the worker out of the computation:
a future that is invalid or merely spawned stays invalid or spawned. -/
theorem step_no_worker {Progress PS Result Error : Type} [Inhabited Result]
    (pol : ProgressPolicy Progress PS) (e : Ev Progress Result Error)
    (s s2 : TaskState PS Result Error) (h : List (HookEvent Progress Result))
    (hs : step pol e s = some (s2, h)) (he : e ≠ .workerEnter)
    (hw : s.mFuture = .invalid ∨ s.mFuture = .spawned) :
    s2.mFuture = .invalid ∨ s2.mFuture = .spawned := by
  obtain ⟨st, res, fut, c, rn, ep, ps, d⟩ := s
  cases d
  case true => simp [step] at hs
  case false =>
    cases e with
    | workerEnter => exact absurd rfl he
    | executeOp =>
        cases st <;> simp [step, executeFn] at hs <;>
          obtain ⟨rfl, rfl⟩ := hs <;> simp_all
    | cancelOp =>
        simp [step, cancelFn] at hs
        obtain ⟨rfl, rfl⟩ := hs
        simp_all [cancelFn]
    | getOp =>
        cases st <;> cases fut <;> cases c <;>
          simp [step, getFn, finishFn] at hs <;>
          obtain ⟨rfl, rfl⟩ := hs <;> simp_all
    | pollOp =>
        cases st <;> cases fut <;> cases c <;>
          simp [step, pollFn, finishFn] at hs <;>
          obtain ⟨rfl, rfl⟩ := hs <;> simp_all
    | destroyOp =>
        cases st <;> cases fut <;>
          simp [step, destroyFn] at hs <;>
          obtain ⟨rfl, rfl⟩ := hs <;> simp_all
    | workerPublish p =>
        cases fut <;> cases c <;> simp [step, publishProgressFn] at hs <;>
          obtain ⟨rfl, rfl⟩ := hs <;> simp_all
    | workerFinish o =>
        cases fut <;> cases o <;> simp [step, workerFinishFn] at hs <;>
          obtain ⟨rfl, rfl⟩ := hs <;> simp_all

/-- A run containing no `workerEnter` event keeps the worker out of the
computation. -/
theorem run_no_worker {Progress PS Result Error : Type} [Inhabited Result]
    (pol : ProgressPolicy Progress PS) :
    ∀ (evs : List (Ev Progress Result Error)) (s s2 : TaskState PS Result Error)
      (h : List (HookEvent Progress Result)),
      run pol s evs = some (s2, h) → Ev.workerEnter ∉ evs →
      (s.mFuture = .invalid ∨ s.mFuture = .spawned) →
      s2.mFuture = .invalid ∨ s2.mFuture = .spawned := by
  intro evs
  induction evs with
  | nil =>
      intro s s2 h hr _ hw
      simp [run] at hr
      obtain ⟨rfl, rfl⟩ := hr
      exact hw
  | cons e rest ih =>
      intro s s2 h hr hne hw
      simp only [run] at hr
      cases hstep : step pol e s with
      | none => rw [hstep] at hr; exact absurd hr (by simp)
      | some p =>
          obtain ⟨s1, h1⟩ := p
          rw [hstep] at hr
          dsimp only at hr
          cases hrun : run pol s1 rest with
          | none => rw [hrun] at hr; exact absurd hr (by simp)
          | some q =>
              obtain ⟨s3, h2⟩ := q
              rw [hrun] at hr
              simp at hr
              obtain ⟨rfl, rfl⟩ := hr
              have he : e ≠ .workerEnter := fun hee => hne (hee ▸ List.mem_cons_self e rest)
              have hrest : Ev.workerEnter ∉ rest := fun hm => hne (List.mem_cons_of_mem e hm)
              exact ih s1 s3 h2 hrun hrest
                (step_no_worker pol e s s1 h1 hstep he hw)

/-- Once cancellation is requested while the worker has not begun the
computation (or already yielded the default outcome), every step keeps the
flag set and the worker away from the computation body: the future stays
invalid, spawned, or completed with the default result. -/
theorem step_cancelled_safe {Progress PS Result Error : Type} [Inhabited Result]
    (pol : ProgressPolicy Progress PS) (e : Ev Progress Result Error)
    (s s2 : TaskState PS Result Error) (h : List (HookEvent Progress Result))
    (hs : step pol e s = some (s2, h)) (hc : s.atCancelled = true)
    (hw : s.mFuture = .invalid ∨ s.mFuture = .spawned ∨ s.mFuture = .done default) :
    s2.atCancelled = true ∧
      (s2.mFuture = .invalid ∨ s2.mFuture = .spawned ∨ s2.mFuture = .done default) := by
  obtain ⟨st, res, fut, c, rn, ep, ps, d⟩ := s
  cases d
  case true => simp [step] at hs
  case false =>
    cases c
    case false => exact absurd hc (by simp)
    case true =>
      cases e with
      | executeOp =>
          cases st <;> simp [step, executeFn] at hs <;>
            obtain ⟨rfl, rfl⟩ := hs <;> simp_all
      | cancelOp =>
          simp [step, cancelFn] at hs
          obtain ⟨rfl, rfl⟩ := hs
          simp_all [cancelFn]
      | getOp =>
          cases st <;> cases fut <;>
            simp [step, getFn, finishFn] at hs <;>
            obtain ⟨rfl, rfl⟩ := hs <;> simp_all
      | pollOp =>
          cases st <;> cases fut <;>
            simp [step, pollFn, finishFn] at hs <;>
            obtain ⟨rfl, rfl⟩ := hs <;> simp_all
      | destroyOp =>
          cases st <;> cases fut <;>
            simp [step, destroyFn] at hs <;>
            obtain ⟨rfl, rfl⟩ := hs <;> simp_all
      | workerEnter =>
          cases fut <;> simp [step, workerEnterFn] at hs <;>
            obtain ⟨rfl, rfl⟩ := hs <;> simp_all
      | workerPublish p =>
          cases fut <;> simp [step, publishProgressFn] at hs <;>
            obtain ⟨rfl, rfl⟩ := hs <;> simp_all
      | workerFinish o =>
          cases fut <;> cases o <;> simp [step, workerFinishFn] at hs <;>
            obtain ⟨rfl, rfl⟩ := hs <;> simp_all

/-- Run-level closure of `step_cancelled_safe`. -/
theorem run_cancelled_safe {Progress PS Result Error : Type} [Inhabited Result]
    (pol : ProgressPolicy Progress PS) :
    ∀ (evs : List (Ev Progress Result Error)) (s s2 : TaskState PS Result Error)
      (h : List (HookEvent Progress Result)),
      run pol s evs = some (s2, h) → s.atCancelled = true →
      (s.mFuture = .invalid ∨ s.mFuture = .spawned ∨ s.mFuture = .done default) →
      s2.atCancelled = true ∧
        (s2.mFuture = .invalid ∨ s2.mFuture = .spawned ∨
          s2.mFuture = .done default) := by
  intro evs
  induction evs with
  | nil =>
      intro s s2 h hr hc hw
      simp [run] at hr
      obtain ⟨rfl, rfl⟩ := hr
      exact ⟨hc, hw⟩
  | cons e rest ih =>
      intro s s2 h hr hc hw
      simp only [run] at hr
      cases hstep : step pol e s with
      | none => rw [hstep] at hr; exact absurd hr (by simp)
      | some p =>
          obtain ⟨s1, h1⟩ := p
          rw [hstep] at hr
          dsimp only at hr
          cases hrun : run pol s1 rest with
          | none => rw [hrun] at hr; exact absurd hr (by simp)
          | some q =>
              obtain ⟨s3, h2⟩ := q
              rw [hrun] at hr
              simp at hr
              obtain ⟨rfl, rfl⟩ := hr
              have hk := step_cancelled_safe pol e s s1 h1 hstep hc hw
              exact ih s1 s3 h2 hrun hk.1 hk.2

/-- A successful run of a concatenation splits into successful runs of the
two parts. -/
theorem run_append_some {Progress PS Result Error : Type} [Inhabited Result]
    (pol : ProgressPolicy Progress PS) :
    ∀ (l1 l2 : List (Ev Progress Result Error)) (s s2 : TaskState PS Result Error)
      (h : List (HookEvent Progress Result)),
      run pol s (l1 ++ l2) = some (s2, h) →
      ∃ s1 h1 h2, run pol s l1 = some (s1, h1) ∧ run pol s1 l2 = some (s2, h2) ∧
        h = h1 ++ h2 := by
  intro l1
  induction l1 with
  | nil =>
      intro l2 s s2 h hr
      exact ⟨s, [], h, rfl, hr, rfl⟩
  | cons e rest ih =>
      intro l2 s s2 h hr
      simp only [List.cons_append, run] at hr
      cases hstep : step pol e s with
      | none => rw [hstep] at hr; exact absurd hr (by simp)
      | some p =>
          obtain ⟨s1, h1⟩ := p
          rw [hstep] at hr
          dsimp only at hr
          cases hrun : run pol s1 (rest.append l2) with
          | none => rw [hrun] at hr; exact absurd hr (by simp)
          | some q =>
              obtain ⟨s3, h2⟩ := q
              rw [hrun] at hr
              simp at hr
              obtain ⟨rfl, rfl⟩ := hr
              obtain ⟨sm, hm1, hm2, hrest, hl2, rfl⟩ := ih l2 s1 s3 h2 hrun
              refine ⟨sm, h1 ++ hm1, hm2, ?_, hl2, by simp⟩
              simp only [run, hstep, hrest]

/-- Claim C7, as amended: in the `AsyncTaskBase` variant (src/asynctask.h)
the spawned worker checks the cancellation flag once before invoking the
user computation: entering with the flag set skips the computation (the
future goes directly to `done default`, never through `body`); consequently,
in every run in which `cancel` happens before the worker body starts, the
computation is never invoked (no reachable state has the future in phase
`body`) and any worker outcome is the default-constructed one.  The legacy
src/AsyncTask.h worker performs no such pre-start check: it enters the
computation unconditionally, even with the cancellation flag already set. -/
theorem worker_precheck_skips_cancelled {Progress PS Result Error : Type}
    [Inhabited Result] :
    (∀ (st : Status) (res : Result) (rn d : Bool) (ep : Option Error) (ps : PS),
      workerEnterFn (⟨st, res, .spawned, true, rn, ep, ps, d⟩ :
          TaskState PS Result Error) =
        some ⟨st, res, .done default, true, rn, ep, ps, d⟩) ∧
    (∀ (pol : ProgressPolicy Progress PS) (l1 l2 : List (Ev Progress Result Error))
        (s2 : TaskState PS Result Error) (h : List (HookEvent Progress Result)),
      Ev.workerEnter ∉ l1 →
      run pol (initState pol) (l1 ++ .cancelOp :: l2) = some (s2, h) →
      s2.mFuture ≠ .body ∧ s2.atCancelled = true ∧
        (∀ r, s2.mFuture = .done r → r = default)) ∧
    (∀ (st : Status) (res : Result) (rn d : Bool) (ep : Option Error) (ps : PS),
      Legacy.workerEnterFn (⟨st, res, .spawned, true, rn, ep, ps, d⟩ :
          TaskState PS Result Error) =
        some ⟨st, res, .body, true, rn, ep, ps, d⟩) := by
  refine ⟨fun _ _ _ _ _ _ => rfl, ?_, fun _ _ _ _ _ _ => rfl⟩
  intro pol l1 l2 s2 h hne hr
  obtain ⟨s1, h1, h2, hrun1, hrun2, rfl⟩ := run_append_some pol l1 (.cancelOp :: l2)
    (initState pol) s2 h hr
  have hw1 : s1.mFuture = .invalid ∨ s1.mFuture = .spawned :=
    run_no_worker pol l1 (initState pol) s1 h1 hrun1 hne (Or.inl rfl)
  simp only [run] at hrun2
  cases hd : s1.destroyed with
  | true => rw [show step pol .cancelOp s1 = none by simp [step, hd]] at hrun2
            exact absurd hrun2 (by simp)
  | false =>
      rw [show step pol .cancelOp s1 = some (cancelFn s1, []) by simp [step, hd]]
        at hrun2
      dsimp only at hrun2
      cases hrun3 : run pol (cancelFn s1) l2 with
      | none => rw [hrun3] at hrun2; exact absurd hrun2 (by simp)
      | some q =>
          obtain ⟨s3, h3⟩ := q
          rw [hrun3] at hrun2
          simp at hrun2
          obtain ⟨rfl, rfl⟩ := hrun2
          have hk := run_cancelled_safe pol l2 (cancelFn s1) s3 h3 hrun3 rfl
            (by rcases hw1 with hw | hw <;> simp [cancelFn, hw])
          rcases hk with ⟨hkc, hkf⟩
          refine ⟨?_, hkc, ?_⟩
          · rcases hkf with hf | hf | hf <;> simp [hf]
          · intro r hfr
            rcases hkf with hf | hf | hf <;> rw [hf] at hfr <;> simp_all

/-- Witness for C7: the run `execute`, `cancel`, worker entry — the worker
skips the computation and completes with the default outcome 0. -/
theorem worker_precheck_skips_cancelled_witness :
    FutureState.done (0 : Nat) ≠ FutureState.body :=
  ((@worker_precheck_skips_cancelled Nat Nat Nat Nat _).2.1
    (slotPolicy Nat) [.executeOp] [.workerEnter]
    ⟨.RUNNING, 0, .done 0, true, false, none, 0, false⟩
    [.preExecute] (by decide) rfl).1

/-- A step of the latest-value variant that is not a `publishProgress` leaves
the progress slot untouched (`handleProgress` only loads it). -/
theorem step_slot_keep {Progress Result Error : Type} [Inhabited Progress]
    [Inhabited Result] (e : Ev Progress Result Error)
    (s s2 : TaskState Progress Result Error)
    (h : List (HookEvent Progress Result))
    (hs : step (slotPolicy Progress) e s = some (s2, h))
    (hp : ∀ p : Progress, e ≠ .workerPublish p) : s2.pstore = s.pstore := by
  obtain ⟨st, res, fut, c, rn, ep, ps, d⟩ := s
  cases d
  case true => simp [step] at hs
  case false =>
    cases e with
    | workerPublish p => exact absurd rfl (hp p)
    | executeOp =>
        cases st <;> simp [step, executeFn] at hs <;>
          obtain ⟨rfl, rfl⟩ := hs <;> rfl
    | cancelOp =>
        simp [step, cancelFn] at hs
        obtain ⟨rfl, rfl⟩ := hs
        rfl
    | getOp =>
        cases st <;> cases fut <;> cases c <;>
          simp [step, getFn, finishFn] at hs <;>
          obtain ⟨rfl, rfl⟩ := hs <;> rfl
    | pollOp =>
        cases st <;> cases fut <;> cases c <;>
          simp [step, pollFn, finishFn, slotPolicy] at hs <;>
          obtain ⟨rfl, rfl⟩ := hs <;> rfl
    | destroyOp =>
        cases st <;> cases fut <;>
          simp [step, destroyFn] at hs <;>
          obtain ⟨rfl, rfl⟩ := hs <;> rfl
    | workerEnter =>
        cases fut <;> cases c <;> simp [step, workerEnterFn] at hs <;>
          obtain ⟨rfl, rfl⟩ := hs <;> rfl
    | workerFinish o =>
        cases fut <;> cases o <;> simp [step, workerFinishFn] at hs <;>
          obtain ⟨rfl, rfl⟩ := hs <;> rfl

/-- Run-level closure of `step_slot_keep`. -/
theorem run_slot_keep {Progress Result Error : Type} [Inhabited Progress]
    [Inhabited Result] :
    ∀ (evs : List (Ev Progress Result Error))
      (s s2 : TaskState Progress Result Error)
      (h : List (HookEvent Progress Result)),
      run (slotPolicy Progress) s evs = some (s2, h) →
      (∀ p : Progress, Ev.workerPublish p ∉ evs) → s2.pstore = s.pstore := by
  intro evs
  induction evs with
  | nil =>
      intro s s2 h hr _
      simp [run] at hr
      obtain ⟨rfl, rfl⟩ := hr
      rfl
  | cons e rest ih =>
      intro s s2 h hr hnp
      simp only [run] at hr
      cases hstep : step (slotPolicy Progress) e s with
      | none => rw [hstep] at hr; exact absurd hr (by simp)
      | some p =>
          obtain ⟨s1, h1⟩ := p
          rw [hstep] at hr
          dsimp only at hr
          cases hrun : run (slotPolicy Progress) s1 rest with
          | none => rw [hrun] at hr; exact absurd hr (by simp)
          | some q =>
              obtain ⟨s3, h2⟩ := q
              rw [hrun] at hr
              simp at hr
              obtain ⟨rfl, rfl⟩ := hr
              have he : ∀ p : Progress, e ≠ .workerPublish p :=
                fun p hep => hnp p (hep ▸ List.mem_cons_self e rest)
              have hrest : ∀ p : Progress, Ev.workerPublish p ∉ rest :=
                fun p hm => hnp p (List.mem_cons_of_mem e hm)
              rw [ih s1 s3 h2 hrun hrest]
              exact step_slot_keep e s s1 h1 hstep he

/-- Claim C10: in the latest-value variant (`AsyncTask` of src/asynctask.h),
every poll that finds the worker still running (future `spawned` or `body`)
invokes the progress hook unconditionally with the current content of the
single slot; and along any run of the variant in which the worker never
published progress, the slot still holds its default-constructed value — so
such a poll calls the hook with the default `Progress` value rather than
skipping it. -/
theorem latest_value_progress_default {Progress Result Error : Type}
    [Inhabited Progress] [Inhabited Result] :
    (∀ (res : Result) (c rn d : Bool) (ep : Option Error) (p : Progress),
      @pollFn Progress Progress Result Error (slotPolicy Progress)
          ⟨.RUNNING, res, .spawned, c, rn, ep, p, d⟩ =
        (⟨.RUNNING, res, .spawned, c, rn, ep, p, d⟩, [.progressUpdate p],
         .ret false) ∧
      @pollFn Progress Progress Result Error (slotPolicy Progress)
          ⟨.RUNNING, res, .body, c, rn, ep, p, d⟩ =
        (⟨.RUNNING, res, .body, c, rn, ep, p, d⟩, [.progressUpdate p],
         .ret false)) ∧
    (∀ (evs : List (Ev Progress Result Error))
        (s2 : TaskState Progress Result Error)
        (h : List (HookEvent Progress Result)),
      run (slotPolicy Progress) (initState (slotPolicy Progress)) evs =
        some (s2, h) →
      (∀ p : Progress, Ev.workerPublish p ∉ evs) →
      s2.pstore = (default : Progress)) := by
  refine ⟨fun _ _ _ _ _ _ => ⟨rfl, rfl⟩, ?_⟩
  intro evs s2 h hr hnp
  exact run_slot_keep evs (initState (slotPolicy Progress)) s2 h hr hnp

/-- Witness for C10: running just `execute` publishes nothing; the slot holds
the default value 0. -/
theorem latest_value_progress_default_witness : (0 : Nat) = (default : Nat) :=
  (@latest_value_progress_default Nat Nat Nat _ _).2
    [.executeOp] ⟨.RUNNING, 0, .spawned, false, false, none, 0, false⟩
    [.preExecute] rfl (by intro p hp; simp at hp)

end AsyncTaskSpec
